import Mathlib

/-!
Verification of the `LogisticRegression` model of the SmogEmissionsClassifier
repository (`src/models/logistic-regression.js`).

The model is shallowly embedded over exact rationals.  Matrices (tfjs tensors
of rank 2) are lists of rows of rationals.  The three transcendental
elementwise kernels the source takes from `@tensorflow/tfjs-node` —
`sigmoid`, `log` and `pow 0.5` — operate on floating-point numbers and have
no exact rational counterpart, so they are abstracted into a parameter
structure `Prims`; every theorem below holds for every instantiation of
these kernels.  `moments` (per-column mean and population variance) is
rational-exact and is modelled concretely.
-/

/-- A rank-2 tensor: a list of rows. -/
abbrev Mat := List (List ℚ)

/-- The external elementwise kernels used by the source: tfjs `sigmoid`,
tfjs `log`, and tfjs `pow 0.5` (square root), abstracted as arbitrary
rational functions. -/
structure Prims where
  sig : ℚ → ℚ
  log : ℚ → ℚ
  sqrt : ℚ → ℚ

/-- Dot product of two rows (tfjs multiplies elementwise and sums; extra
entries of the longer vector are never produced because shapes agree in
every call the source makes). -/
def dot (u v : List ℚ) : ℚ := (List.zipWith (· * ·) u v).sum

/-- Column count of a matrix, read off the first row (tfjs `shape[1]`). -/
def width (A : Mat) : ℕ := (A.headD []).length

/-- tfjs `transpose` on a rank-2 tensor. -/
def transp (A : Mat) : Mat :=
  (List.range (width A)).map (fun k => A.map (fun r => r.getD k 0))

/-- tfjs `matMul`: row i of the result is the vector of dot products of row i
of `A` with the columns of `B`. -/
def matMul (A B : Mat) : Mat :=
  A.map (fun r => (transp B).map (fun c => dot r c))

/-- Elementwise map over a matrix (tfjs elementwise kernels and scalar
`mul`/`add`/`div`). -/
def mapMat (f : ℚ → ℚ) (A : Mat) : Mat := A.map (fun r => r.map f)

/-- Elementwise combination of two same-shaped matrices (tfjs `sub`/`add` on
tensors of equal shape). -/
def zipMat (f : ℚ → ℚ → ℚ) (A B : Mat) : Mat :=
  List.zipWith (List.zipWith f) A B

/-- tfjs broadcasted `sub` of a length-`width` row vector from every row. -/
def rowwiseSub (A : Mat) (v : List ℚ) : Mat :=
  A.map (fun r => List.zipWith (· - ·) r v)

/-- tfjs broadcasted `div` of every row by a length-`width` row vector. -/
def rowwiseDiv (A : Mat) (v : List ℚ) : Mat :=
  A.map (fun r => List.zipWith (· / ·) r v)

/-- tfjs `ones([n,1]).concat(features, 1)`: prepend a bias column of 1.0. -/
def addBias (A : Mat) : Mat := A.map (fun r => 1 :: r)

/-- tfjs `slice([start, 0], [len, -1])`: rows `[start, start+len)`, all
columns. -/
def sliceRows (A : Mat) (start len : ℕ) : Mat := (A.drop start).take len

/-- Entry `(i, k)` of a matrix, defaulting to 0 outside the shape. -/
def entry (A : Mat) (i k : ℕ) : ℚ := (A.getD i []).getD k 0

/-- Arithmetic mean of a list (tfjs `moments` mean along axis 0, per
column). -/
def meanQ (l : List ℚ) : ℚ := l.sum / l.length

/-- Population variance of a list (tfjs `moments` variance along axis 0,
per column). -/
def varQ (l : List ℚ) : ℚ := ((l.map (fun x => (x - meanQ l) ^ 2)).sum) / l.length

/-- Per-column means of a matrix: the `mean` component of
`moments(features, 0)`. -/
def colMeans (A : Mat) : List ℚ := (transp A).map meanQ

/-- Per-column population variances of a matrix: the `variance` component of
`moments(features, 0)`. -/
def colVars (A : Mat) : List ℚ := (transp A).map varQ

/-- The caller-supplied options object.  JavaScript object fields may be
absent (`undefined`), hence every field is an `Option`. -/
structure Hyper where
  learningRate : Option ℚ
  iterations : Option ℕ
  batchSize : Option ℕ
  decisionBoundary : Option ℚ
deriving DecidableEq, Repr

/-- The default parameter value of the constructor's `options` argument:
`{ learningRate: 0.1, iterations: 1000, batchSize: 1, decisionBoundary: 0.5 }`. -/
def defaultHyper : Hyper :=
  { learningRate := some (1/10), iterations := some 1000,
    batchSize := some 1, decisionBoundary := some (1/2) }

namespace LogisticRegression

/-- The instance state of the `LogisticRegression` class: the standardized
bias-augmented training features, the label tensor, the options object, the
cost history, the weight vector (a `(d+1) x 1` matrix), and the saved
moments (`undefined` until `standardize` first runs, hence `Option`). -/
structure Model where
  features : Mat
  labels : Mat
  options : Hyper
  costHistory : List ℚ
  weights : Mat
  mean : Option (List ℚ)
  variance : Option (List ℚ)
deriving DecidableEq, Repr

/-- Method `standardize(features)`: compute `moments(features, 0)`, save mean
and variance, and return `features.sub(mean).div(variance.pow(0.5))`.
Returned here as (standardized matrix, saved mean, saved variance) because
the JS method also writes `this.mean` / `this.variance`. -/
def standardize (P : Prims) (features : Mat) : Mat × List ℚ × List ℚ :=
  let mn := colMeans features
  let vr := colVars features
  (rowwiseDiv (rowwiseSub features mn) (vr.map P.sqrt), mn, vr)

/-- Method `preprocessFeatures(features)`: if `this.mean && this.variance`
are set (tensors are always truthy; `undefined` is falsy), standardize with
the stored moments; otherwise call `standardize`, which computes and saves
them.  Then prepend the bias column.  Returns the processed matrix together
with the (possibly newly saved) moments. -/
def preprocessFeatures (P : Prims) (mean variance : Option (List ℚ))
    (features : Mat) : Mat × Option (List ℚ) × Option (List ℚ) :=
  match mean, variance with
  | some mn, some vr =>
      (addBias (rowwiseDiv (rowwiseSub features mn) (vr.map P.sqrt)),
        some mn, some vr)
  | _, _ =>
      let s := standardize P features
      (addBias s.1, some s.2.1, some s.2.2)

/-- The constructor: `this.features = this.preprocessFeatures(features)`
(first call, so moments get computed and saved), `this.labels =
tensor(labels)`, `this.options = options` (the default object applies only
when the argument is omitted/`undefined`, modelled as `none`),
`this.costHistory = []`, `this.weights = zeros([this.features.shape[1], 1])`. -/
def mkModel (P : Prims) (features labels : Mat) (options : Option Hyper) :
    Model :=
  let o := options.getD defaultHyper
  let pf := preprocessFeatures P none none features
  { features := pf.1
    labels := labels
    options := o
    costHistory := []
    weights := List.replicate (width pf.1) [0]
    mean := pf.2.1
    variance := pf.2.2 }

/-- Method `gradientDescent(features, labels)`: predictions =
`sigmoid(features · weights)`, differences = predictions − labels,
gradients = `featuresᵀ · differences / features.shape[0]`, and
`weights ← weights − gradients * learningRate`.  An absent `learningRate`
would poison the weights with NaN in JS; no specified behaviour exercises
that path, and it is read with a zero default here. -/
def gradientDescent (P : Prims) (m : Model) (features labels : Mat) : Model :=
  let currentPredictions := mapMat P.sig (matMul features m.weights)
  let differences := zipMat (· - ·) currentPredictions labels
  let gradients :=
    mapMat (· / (features.length : ℚ)) (matMul (transp features) differences)
  let newWeights :=
    zipMat (· - ·) m.weights
      (mapMat (· * m.options.learningRate.getD 0) gradients)
  { m with weights := newWeights }

/-- The scalar computed by `recordCost()`: predictions =
`sigmoid(this.features · weights)` over the full stored training matrix;
`termOne = labelsᵀ · log(predictions)`, `termTwo = (labels·(−1)+1)ᵀ ·
log(predictions·(−1)+1)`, and the value is
`((termOne + termTwo) / n · (−1)).arraySync()[0][0]`. -/
def costValue (P : Prims) (m : Model) : ℚ :=
  let predictions := mapMat P.sig (matMul m.features m.weights)
  let termOne := matMul (transp m.labels) (mapMat P.log predictions)
  let termTwo :=
    matMul (transp (mapMat (fun x => x * (-1) + 1) m.labels))
      (mapMat P.log (mapMat (fun x => x * (-1) + 1) predictions))
  entry (mapMat (· * (-1))
    (mapMat (· / (m.features.length : ℚ)) (zipMat (· + ·) termOne termTwo)))
    0 0

/-- Method `recordCost()`: compute the cross-entropy cost and
`costHistory.unshift(cost)` — the new cost is PREPENDED. -/
def recordCost (P : Prims) (m : Model) : Model :=
  { m with costHistory := costValue P m :: m.costHistory }

/-- Method `optimizeLearningRate()`: return unchanged while fewer than two
costs exist; else halve `learningRate` when `costHistory[0] >
costHistory[1]` (`unshift` puts the most recent cost at index 0) and
multiply it by 1.05 otherwise.  An absent `learningRate` would become NaN
in JS; it is modelled as staying absent. -/
def optimizeLearningRate (m : Model) : Model :=
  if m.costHistory.length < 2 then m
  else if m.costHistory.getD 0 0 > m.costHistory.getD 1 0 then
    { m with options :=
        { m.options with learningRate := m.options.learningRate.map (· / 2) } }
  else
    { m with options :=
        { m.options with
            learningRate := m.options.learningRate.map (· * (21/20)) } }

/-- One pass of the inner batch loop of `train()`: slice rows
`[j·batchSize, (j+1)·batchSize)` of features and labels and run
`gradientDescent` on them. -/
def batchPass (P : Prims) (st : Model) (j : ℕ) : Model :=
  let b := st.options.batchSize.getD 0
  let startIndex := j * b
  gradientDescent P st (sliceRows st.features startIndex b)
    (sliceRows st.labels startIndex b)

/-- One epoch of `train()`: the batch loop for `j = 0 .. q-1`, then
`recordCost`, then `optimizeLearningRate`. -/
def epochStep (P : Prims) (q : ℕ) (st : Model) : Model :=
  optimizeLearningRate (recordCost P ((List.range q).foldl (batchPass P) st))

/-- Method `train()`: `batchQuantity = floor(features.shape[0] / batchSize)`
computed once, then `iterations` epochs.  JS semantics of absent fields:
with `iterations` absent the loop test `i < undefined` is false, so zero
epochs run (`getD 0`); with `batchSize` absent `batchQuantity` is NaN and
the inner loop runs zero times.  (A `batchSize` of 0 would loop forever in
JS; the hyperparameter contract requires `batchSize ≥ 1` and theorems
assume it.) -/
def train (P : Prims) (m : Model) : Model :=
  let batchQuantity :=
    match m.options.batchSize with
    | some b => m.features.length / b
    | none => 0
  (List.range (m.options.iterations.getD 0)).foldl
    (fun st _ => epochStep P batchQuantity st) m

/-- Method `predict(observations)`: preprocess with the stored moments,
multiply by the weights, apply `sigmoid`, compare strictly against
`decisionBoundary` and cast the boolean to 0.0/1.0.  The JS method can in
principle write `this.mean`/`this.variance` through `preprocessFeatures`,
so the (possibly updated) model is returned alongside the labels. -/
def predict (P : Prims) (m : Model) (observations : Mat) : Mat × Model :=
  let pf := preprocessFeatures P m.mean m.variance observations
  let predictedLabels :=
    mapMat
      (fun x => if P.sig x > m.options.decisionBoundary.getD 0 then 1 else 0)
      (matMul pf.1 m.weights)
  (predictedLabels, { m with mean := pf.2.1, variance := pf.2.2 })

/-- Method `test(testFeatures, testLabels)`: predictions via `predict`,
`incorrectPredictions = |predictions − testLabels|` summed over all
entries, accuracy = `(rows − incorrect) / rows`. -/
def test (P : Prims) (m : Model) (testFeatures testLabels : Mat) :
    ℚ × Model :=
  let pr := predict P m testFeatures
  let incorrectPredictions :=
    ((mapMat (fun x => |x|) (zipMat (· - ·) pr.1 testLabels)).map
      (fun r => r.sum)).sum
  (((pr.1.length : ℚ) - incorrectPredictions) / (pr.1.length : ℚ), pr.2)

/-- The state after `k` completed epochs of `train()` with per-epoch batch
count `q` (the constant computed once before the epoch loop). -/
def runEpochs (P : Prims) (q : ℕ) (m : Model) : ℕ → Model
  | 0 => m
  | k + 1 => epochStep P q (runEpochs P q m k)

/-- The cross-entropy cost recorded at the end of epoch `i` (0-based) of a
training run starting from `m` with per-epoch batch count `q`: `unshift`
prepends, so it is the head of the cost history right after epoch `i`
completes. -/
def epochCost (P : Prims) (q : ℕ) (m : Model) (i : ℕ) : ℚ :=
  ((runEpochs P q m (i + 1)).costHistory).headD 0

end LogisticRegression

open LogisticRegression

/-- A concrete instantiation of the external elementwise kernels, used to
evaluate the model on concrete inputs. -/
def idPrims : Prims := { sig := fun z => z, log := fun z => z, sqrt := fun z => z }

/-- A concrete full options record: learning rate 1, 2 iterations, batch
size 1, decision boundary 1/2. -/
def opts0 : Hyper :=
  { learningRate := some 1, iterations := some 2, batchSize := some 1,
    decisionBoundary := some (1/2) }

/-- A concrete model: training features [[1],[3]], labels [[0],[1]],
options `opts0`. -/
def M0 : Model := mkModel idPrims [[1],[3]] [[0],[1]] (some opts0)

/-- The literal value of `M0`: the features standardize to [[1,-1],[1,1]]
(mean 2, variance 1, bias column prepended). -/
def M0lit : Model :=
  { features := [[1,-1],[1,1]], labels := [[0],[1]], options := opts0,
    costHistory := [], weights := [[0],[0]],
    mean := some [2], variance := some [1] }

/-- The literal value of `M0` after one epoch (two size-1 batches, cost
−3/2 recorded, learning-rate controller a no-op with one cost). -/
def M1lit : Model :=
  { M0lit with weights := [[1],[1]], costHistory := [-3/2] }

/-- The literal value of `M0` after two epochs: the second epoch's cost
−1/2 is prepended, and since −1/2 > −3/2 the learning rate halves. -/
def M2lit : Model :=
  { M0lit with
    weights := [[0],[0]]
    costHistory := [-1/2, -3/2]
    options := { opts0 with learningRate := some (1/2) } }

/-- A concrete model used to exercise the learning-rate controller: cost
history [3, 2] (most recent first), learning rate 1. -/
def W3 : Model :=
  { features := [[1]], labels := [[0]], options := opts0,
    costHistory := [3, 2], weights := [[0]],
    mean := some [0], variance := some [1] }

/-- A concrete options record whose `iterations` field is absent. -/
def opts10 : Hyper :=
  { learningRate := some 1, iterations := none, batchSize := some 1,
    decisionBoundary := some (1/2) }

/-- A concrete model with two weight rows, used to instantiate the
gradient-descent update formula. -/
def W4 : Model :=
  { features := [[1,0],[0,1]], labels := [[0],[1]], options := opts0,
    costHistory := [], weights := [[0],[0]],
    mean := some [0,0], variance := some [1,1] }

/-- The learning-rate adjustment `optimizeLearningRate` applies once two
costs `c0` (most recent) and `c1` (previous) exist: halve on a strict cost
increase, multiply by 1.05 otherwise. -/
def lrUpdate (c0 c1 lr : ℚ) : ℚ := if c1 < c0 then lr / 2 else lr * (21/20)

lemma getD_map_of_lt {α β : Type*} (f : α → β) (l : List α) (i : ℕ) (d : α)
    (d' : β) (h : i < l.length) : (l.map f).getD i d' = f (l.getD i d) := by
  rw [List.getD_eq_getElem _ _ (by simpa using h), List.getD_eq_getElem _ _ h,
    List.getElem_map]

lemma getD_zipWith_of_lt {α β γ : Type*} (f : α → β → γ) (l1 : List α)
    (l2 : List β) (i : ℕ) (d1 : α) (d2 : β) (d3 : γ) (h1 : i < l1.length)
    (h2 : i < l2.length) :
    (List.zipWith f l1 l2).getD i d3 = f (l1.getD i d1) (l2.getD i d2) := by
  induction l1 generalizing l2 i with
  | nil => simp at h1
  | cons a t ih =>
    cases l2 with
    | nil => simp at h2
    | cons b t2 =>
      cases i with
      | zero => rfl
      | succ n =>
        simp only [List.zipWith_cons_cons, List.getD_cons_succ]
        exact ih t2 n (by simpa using h1) (by simpa using h2)

lemma dot_eq_sum (u v : List ℚ) (n : ℕ) (hu : u.length = n)
    (hv : v.length = n) :
    dot u v = ∑ j ∈ Finset.range n, u.getD j 0 * v.getD j 0 := by
  induction u generalizing v n with
  | nil =>
    subst hu
    have : v = [] := List.eq_nil_of_length_eq_zero hv
    subst this
    simp [dot]
  | cons a t ih =>
    cases v with
    | nil => rw [← hu] at hv; simp at hv
    | cons b t2 =>
      subst hu
      simp only [List.length_cons]
      rw [Finset.sum_range_succ']
      simp only [List.getD_cons_succ, List.getD_cons_zero]
      have : dot (a :: t) (b :: t2) = a * b + dot t t2 := by
        simp [dot]
      rw [this, ih t2 t.length rfl (by simpa using hv)]
      ring

lemma length_transp (A : Mat) : (transp A).length = width A := by
  simp [transp]

lemma getD_transp (A : Mat) (k : ℕ) (hk : k < width A) :
    (transp A).getD k [] = A.map (fun r => r.getD k 0) := by
  unfold transp
  rw [getD_map_of_lt _ _ _ 0 _ (by simpa using hk)]
  congr 1
  rw [List.getD_eq_getElem _ _ (by simpa using hk), List.getElem_range]

lemma entry_transp (A : Mat) (k i : ℕ) (hk : k < width A) :
    entry (transp A) k i = entry A i k := by
  unfold entry
  rw [getD_transp A k hk]
  by_cases h : i < A.length
  · rw [getD_map_of_lt _ _ _ [] _ h]
  · rw [List.getD_eq_default _ _ (by simpa using not_lt.1 h),
      List.getD_eq_default _ _ (not_lt.1 h)]
    simp

lemma entry_matMul (A B : Mat) (i k n : ℕ) (hiA : i < A.length)
    (hrow : (A.getD i []).length = n) (hB : B.length = n) (hk : k < width B) :
    entry (matMul A B) i k = ∑ j ∈ Finset.range n, entry A i j * entry B j k := by
  unfold matMul entry
  rw [getD_map_of_lt _ _ _ [] _ hiA,
    getD_map_of_lt _ _ _ [] _ (by rw [length_transp]; exact hk),
    getD_transp B k hk, dot_eq_sum _ _ n hrow (by simpa using hB)]
  refine Finset.sum_congr rfl fun j hj => ?_
  rw [getD_map_of_lt _ _ _ [] _ (by rw [hB]; exact Finset.mem_range.1 hj)]

lemma length_mapMat (f : ℚ → ℚ) (A : Mat) : (mapMat f A).length = A.length := by
  simp [mapMat]

lemma length_zipMat (f : ℚ → ℚ → ℚ) (A B : Mat) :
    (zipMat f A B).length = min A.length B.length := by
  simp [zipMat]

lemma length_matMul (A B : Mat) : (matMul A B).length = A.length := by
  simp [matMul]

lemma entry_mapMat_of_lt (f : ℚ → ℚ) (A : Mat) (i k : ℕ) (hi : i < A.length)
    (hk : k < (A.getD i []).length) :
    entry (mapMat f A) i k = f (entry A i k) := by
  unfold entry mapMat
  rw [getD_map_of_lt _ _ _ [] _ hi, getD_map_of_lt _ _ _ 0 _ hk]

lemma entry_zipMat_of_lt (f : ℚ → ℚ → ℚ) (A B : Mat) (i k : ℕ)
    (hiA : i < A.length) (hiB : i < B.length)
    (hkA : k < (A.getD i []).length) (hkB : k < (B.getD i []).length) :
    entry (zipMat f A B) i k = f (entry A i k) (entry B i k) := by
  unfold entry zipMat
  rw [getD_zipWith_of_lt _ _ _ _ [] [] _ hiA hiB,
    getD_zipWith_of_lt _ _ _ _ 0 0 _ hkA hkB]

lemma row_mapMat_length (f : ℚ → ℚ) (A : Mat) (i : ℕ) :
    ((mapMat f A).getD i []).length = (A.getD i []).length := by
  by_cases h : i < A.length
  · rw [show (mapMat f A).getD i [] = (A.getD i []).map f from
      getD_map_of_lt _ _ _ [] _ h]
    simp
  · rw [List.getD_eq_default _ _ (by simpa [length_mapMat] using not_lt.1 h),
      List.getD_eq_default _ _ (not_lt.1 h)]

lemma row_matMul_length (A B : Mat) (i : ℕ) (hi : i < A.length) :
    ((matMul A B).getD i []).length = width B := by
  unfold matMul
  rw [getD_map_of_lt _ _ _ [] _ hi]
  simp [length_transp]

lemma row_zipMat_length (f : ℚ → ℚ → ℚ) (A B : Mat) (i : ℕ)
    (hiA : i < A.length) (hiB : i < B.length) :
    ((zipMat f A B).getD i []).length =
      min ((A.getD i []).length) ((B.getD i []).length) := by
  unfold zipMat
  rw [getD_zipWith_of_lt _ _ _ _ [] [] _ hiA hiB]
  simp

@[simp] lemma gradientDescent_features (P : Prims) (m : Model) (X y : Mat) :
    (gradientDescent P m X y).features = m.features := rfl

@[simp] lemma gradientDescent_labels (P : Prims) (m : Model) (X y : Mat) :
    (gradientDescent P m X y).labels = m.labels := rfl

@[simp] lemma gradientDescent_options (P : Prims) (m : Model) (X y : Mat) :
    (gradientDescent P m X y).options = m.options := rfl

@[simp] lemma gradientDescent_costHistory (P : Prims) (m : Model) (X y : Mat) :
    (gradientDescent P m X y).costHistory = m.costHistory := rfl

@[simp] lemma gradientDescent_mean (P : Prims) (m : Model) (X y : Mat) :
    (gradientDescent P m X y).mean = m.mean := rfl

@[simp] lemma gradientDescent_variance (P : Prims) (m : Model) (X y : Mat) :
    (gradientDescent P m X y).variance = m.variance := rfl

@[simp] lemma batchPass_features (P : Prims) (st : Model) (j : ℕ) :
    (batchPass P st j).features = st.features := rfl

@[simp] lemma batchPass_labels (P : Prims) (st : Model) (j : ℕ) :
    (batchPass P st j).labels = st.labels := rfl

@[simp] lemma batchPass_options (P : Prims) (st : Model) (j : ℕ) :
    (batchPass P st j).options = st.options := rfl

@[simp] lemma batchPass_costHistory (P : Prims) (st : Model) (j : ℕ) :
    (batchPass P st j).costHistory = st.costHistory := rfl

@[simp] lemma batchPass_mean (P : Prims) (st : Model) (j : ℕ) :
    (batchPass P st j).mean = st.mean := rfl

@[simp] lemma batchPass_variance (P : Prims) (st : Model) (j : ℕ) :
    (batchPass P st j).variance = st.variance := rfl

@[simp] lemma recordCost_features (P : Prims) (m : Model) :
    (recordCost P m).features = m.features := rfl

@[simp] lemma recordCost_labels (P : Prims) (m : Model) :
    (recordCost P m).labels = m.labels := rfl

@[simp] lemma recordCost_options (P : Prims) (m : Model) :
    (recordCost P m).options = m.options := rfl

@[simp] lemma recordCost_weights (P : Prims) (m : Model) :
    (recordCost P m).weights = m.weights := rfl

@[simp] lemma recordCost_mean (P : Prims) (m : Model) :
    (recordCost P m).mean = m.mean := rfl

@[simp] lemma recordCost_variance (P : Prims) (m : Model) :
    (recordCost P m).variance = m.variance := rfl

@[simp] lemma recordCost_costHistory (P : Prims) (m : Model) :
    (recordCost P m).costHistory = costValue P m :: m.costHistory := rfl

@[simp] lemma optimizeLearningRate_features (m : Model) :
    (optimizeLearningRate m).features = m.features := by
  unfold optimizeLearningRate
  split
  · rfl
  · split <;> rfl

@[simp] lemma optimizeLearningRate_labels (m : Model) :
    (optimizeLearningRate m).labels = m.labels := by
  unfold optimizeLearningRate
  split
  · rfl
  · split <;> rfl

@[simp] lemma optimizeLearningRate_costHistory (m : Model) :
    (optimizeLearningRate m).costHistory = m.costHistory := by
  unfold optimizeLearningRate
  split
  · rfl
  · split <;> rfl

@[simp] lemma optimizeLearningRate_weights (m : Model) :
    (optimizeLearningRate m).weights = m.weights := by
  unfold optimizeLearningRate
  split
  · rfl
  · split <;> rfl

@[simp] lemma optimizeLearningRate_mean (m : Model) :
    (optimizeLearningRate m).mean = m.mean := by
  unfold optimizeLearningRate
  split
  · rfl
  · split <;> rfl

@[simp] lemma optimizeLearningRate_variance (m : Model) :
    (optimizeLearningRate m).variance = m.variance := by
  unfold optimizeLearningRate
  split
  · rfl
  · split <;> rfl

@[simp] lemma optimizeLearningRate_iterations (m : Model) :
    (optimizeLearningRate m).options.iterations = m.options.iterations := by
  unfold optimizeLearningRate
  split
  · rfl
  · split <;> rfl

@[simp] lemma optimizeLearningRate_batchSize (m : Model) :
    (optimizeLearningRate m).options.batchSize = m.options.batchSize := by
  unfold optimizeLearningRate
  split
  · rfl
  · split <;> rfl

@[simp] lemma optimizeLearningRate_decisionBoundary (m : Model) :
    (optimizeLearningRate m).options.decisionBoundary =
      m.options.decisionBoundary := by
  unfold optimizeLearningRate
  split
  · rfl
  · split <;> rfl

@[simp] lemma batchLoop_features (P : Prims) (l : List ℕ) (st : Model) :
    (l.foldl (batchPass P) st).features = st.features := by
  induction l generalizing st with
  | nil => rfl
  | cons j t ih => simp [List.foldl_cons, ih]

@[simp] lemma batchLoop_labels (P : Prims) (l : List ℕ) (st : Model) :
    (l.foldl (batchPass P) st).labels = st.labels := by
  induction l generalizing st with
  | nil => rfl
  | cons j t ih => simp [List.foldl_cons, ih]

@[simp] lemma batchLoop_options (P : Prims) (l : List ℕ) (st : Model) :
    (l.foldl (batchPass P) st).options = st.options := by
  induction l generalizing st with
  | nil => rfl
  | cons j t ih => simp [List.foldl_cons, ih]

@[simp] lemma batchLoop_costHistory (P : Prims) (l : List ℕ) (st : Model) :
    (l.foldl (batchPass P) st).costHistory = st.costHistory := by
  induction l generalizing st with
  | nil => rfl
  | cons j t ih => simp [List.foldl_cons, ih]

@[simp] lemma batchLoop_mean (P : Prims) (l : List ℕ) (st : Model) :
    (l.foldl (batchPass P) st).mean = st.mean := by
  induction l generalizing st with
  | nil => rfl
  | cons j t ih => simp [List.foldl_cons, ih]

@[simp] lemma batchLoop_variance (P : Prims) (l : List ℕ) (st : Model) :
    (l.foldl (batchPass P) st).variance = st.variance := by
  induction l generalizing st with
  | nil => rfl
  | cons j t ih => simp [List.foldl_cons, ih]

@[simp] lemma epochStep_features (P : Prims) (q : ℕ) (st : Model) :
    (epochStep P q st).features = st.features := by
  simp [epochStep]

@[simp] lemma epochStep_labels (P : Prims) (q : ℕ) (st : Model) :
    (epochStep P q st).labels = st.labels := by
  simp [epochStep]

@[simp] lemma epochStep_mean (P : Prims) (q : ℕ) (st : Model) :
    (epochStep P q st).mean = st.mean := by
  simp [epochStep]

@[simp] lemma epochStep_variance (P : Prims) (q : ℕ) (st : Model) :
    (epochStep P q st).variance = st.variance := by
  simp [epochStep]

@[simp] lemma epochStep_iterations (P : Prims) (q : ℕ) (st : Model) :
    (epochStep P q st).options.iterations = st.options.iterations := by
  simp [epochStep]

@[simp] lemma epochStep_batchSize (P : Prims) (q : ℕ) (st : Model) :
    (epochStep P q st).options.batchSize = st.options.batchSize := by
  simp [epochStep]

@[simp] lemma epochStep_decisionBoundary (P : Prims) (q : ℕ) (st : Model) :
    (epochStep P q st).options.decisionBoundary =
      st.options.decisionBoundary := by
  simp [epochStep]

lemma epochStep_costHistory (P : Prims) (q : ℕ) (st : Model) :
    (epochStep P q st).costHistory =
      costValue P ((List.range q).foldl (batchPass P) st) :: st.costHistory := by
  simp [epochStep]

@[simp] lemma runEpochs_zero (P : Prims) (q : ℕ) (m : Model) :
    runEpochs P q m 0 = m := rfl

lemma runEpochs_succ (P : Prims) (q : ℕ) (m : Model) (k : ℕ) :
    runEpochs P q m (k + 1) = epochStep P q (runEpochs P q m k) := rfl

@[simp] lemma runEpochs_features (P : Prims) (q : ℕ) (m : Model) (k : ℕ) :
    (runEpochs P q m k).features = m.features := by
  induction k with
  | zero => rfl
  | succ n ih => rw [runEpochs_succ]; simp [ih]

@[simp] lemma runEpochs_labels (P : Prims) (q : ℕ) (m : Model) (k : ℕ) :
    (runEpochs P q m k).labels = m.labels := by
  induction k with
  | zero => rfl
  | succ n ih => rw [runEpochs_succ]; simp [ih]

@[simp] lemma runEpochs_mean (P : Prims) (q : ℕ) (m : Model) (k : ℕ) :
    (runEpochs P q m k).mean = m.mean := by
  induction k with
  | zero => rfl
  | succ n ih => rw [runEpochs_succ]; simp [ih]

@[simp] lemma runEpochs_variance (P : Prims) (q : ℕ) (m : Model) (k : ℕ) :
    (runEpochs P q m k).variance = m.variance := by
  induction k with
  | zero => rfl
  | succ n ih => rw [runEpochs_succ]; simp [ih]

@[simp] lemma runEpochs_iterations (P : Prims) (q : ℕ) (m : Model) (k : ℕ) :
    (runEpochs P q m k).options.iterations = m.options.iterations := by
  induction k with
  | zero => rfl
  | succ n ih => rw [runEpochs_succ]; simp [ih]

@[simp] lemma runEpochs_batchSize (P : Prims) (q : ℕ) (m : Model) (k : ℕ) :
    (runEpochs P q m k).options.batchSize = m.options.batchSize := by
  induction k with
  | zero => rfl
  | succ n ih => rw [runEpochs_succ]; simp [ih]

@[simp] lemma runEpochs_decisionBoundary (P : Prims) (q : ℕ) (m : Model) (k : ℕ) :
    (runEpochs P q m k).options.decisionBoundary =
      m.options.decisionBoundary := by
  induction k with
  | zero => rfl
  | succ n ih => rw [runEpochs_succ]; simp [ih]

lemma runEpochs_costHistory (P : Prims) (q : ℕ) (m : Model) (k : ℕ) :
    (runEpochs P q m k).costHistory =
      ((List.range k).map (epochCost P q m)).reverse ++ m.costHistory := by
  induction k with
  | zero => simp
  | succ n ih =>
    have hstep := epochStep_costHistory P q (runEpochs P q m n)
    have hcost : epochCost P q m n =
        costValue P ((List.range q).foldl (batchPass P) (runEpochs P q m n)) := by
      unfold epochCost
      rw [runEpochs_succ, hstep]
      rfl
    rw [List.range_succ, List.map_append, List.reverse_append]
    rw [runEpochs_succ, hstep, ih]
    simp [hcost]

lemma foldl_const_epochStep (P : Prims) (q : ℕ) (m : Model) (k : ℕ) :
    (List.range k).foldl (fun st _ => epochStep P q st) m = runEpochs P q m k := by
  induction k with
  | zero => rfl
  | succ n ih => rw [List.range_succ, List.foldl_append, ih]; rfl

lemma train_eq_runEpochs (P : Prims) (m : Model) (b k : ℕ)
    (hb : m.options.batchSize = some b) (hk : m.options.iterations = some k) :
    train P m = runEpochs P (m.features.length / b) m k := by
  unfold train
  simp only [hb, hk, Option.getD_some]
  exact foldl_const_epochStep P (m.features.length / b) m k

lemma train_costHistory_length (P : Prims) (m : Model) :
    (train P m).costHistory.length =
      m.options.iterations.getD 0 + m.costHistory.length := by
  unfold train
  cases hb : m.options.batchSize <;>
    simp [foldl_const_epochStep, runEpochs_costHistory]

@[simp] lemma train_iterations (P : Prims) (m : Model) :
    (train P m).options.iterations = m.options.iterations := by
  unfold train
  cases hb : m.options.batchSize <;> simp [foldl_const_epochStep]

@[simp] lemma train_batchSize (P : Prims) (m : Model) :
    (train P m).options.batchSize = m.options.batchSize := by
  unfold train
  cases hb : m.options.batchSize <;> simp [foldl_const_epochStep, hb]

@[simp] lemma train_decisionBoundary (P : Prims) (m : Model) :
    (train P m).options.decisionBoundary = m.options.decisionBoundary := by
  unfold train
  cases hb : m.options.batchSize <;> simp [foldl_const_epochStep]

@[simp] lemma train_features (P : Prims) (m : Model) :
    (train P m).features = m.features := by
  unfold train
  cases hb : m.options.batchSize <;> simp [foldl_const_epochStep]

@[simp] lemma train_labels (P : Prims) (m : Model) :
    (train P m).labels = m.labels := by
  unfold train
  cases hb : m.options.batchSize <;> simp [foldl_const_epochStep]

@[simp] lemma train_mean (P : Prims) (m : Model) :
    (train P m).mean = m.mean := by
  unfold train
  cases hb : m.options.batchSize <;> simp [foldl_const_epochStep]

@[simp] lemma train_variance (P : Prims) (m : Model) :
    (train P m).variance = m.variance := by
  unfold train
  cases hb : m.options.batchSize <;> simp [foldl_const_epochStep]

lemma M0_eq : M0 = M0lit := by
  norm_num [M0, M0lit, mkModel, preprocessFeatures, standardize, colMeans,
    colVars, meanQ, varQ, transp, width, rowwiseSub, rowwiseDiv, addBias,
    idPrims, opts0, List.range_succ, List.replicate_succ, Model.mk.injEq]

lemma epoch_M0 : epochStep idPrims 2 M0lit = M1lit := by
  norm_num [epochStep, batchPass, gradientDescent, recordCost, costValue,
    optimizeLearningRate, M0lit, M1lit, opts0, idPrims,
    matMul, dot, mapMat, zipMat, transp, width, entry, sliceRows,
    List.range_succ, Model.mk.injEq]

lemma epoch_M1 : epochStep idPrims 2 M1lit = M2lit := by
  norm_num [epochStep, batchPass, gradientDescent, recordCost, costValue,
    optimizeLearningRate, M0lit, M1lit, M2lit, opts0, idPrims,
    matMul, dot, mapMat, zipMat, transp, width, entry, sliceRows,
    List.range_succ, Model.mk.injEq, Hyper.mk.injEq]

lemma train_M0 : train idPrims M0 = M2lit := by
  have h := train_eq_runEpochs idPrims M0 1 2 rfl rfl
  rw [h, M0_eq]
  show runEpochs idPrims 2 M0lit 2 = M2lit
  rw [runEpochs_succ, runEpochs_succ, runEpochs_zero, epoch_M0, epoch_M1]

lemma runEpochs_one_M0 : runEpochs idPrims 2 M0 1 = M1lit := by
  rw [runEpochs_succ, runEpochs_zero, M0_eq, epoch_M0]


/-- Claim C3: `optimizeLearningRate` leaves the model unchanged when fewer
than two cost values exist; with cost history `c0 :: c1 :: rest` (most
recent first, since `recordCost` prepends) it halves `learningRate` exactly
when `c0 > c1` (the most recent cost strictly exceeds the previous epoch's)
and multiplies it by 1.05 (= 21/20) in every other case, equal costs
included; no other model state changes. -/
theorem optimizeLearningRate_spec (m : Model) :
    (m.costHistory.length < 2 → optimizeLearningRate m = m) ∧
    (∀ c0 c1 rest, m.costHistory = c0 :: c1 :: rest →
      optimizeLearningRate m =
        { m with options := { m.options with
            learningRate := m.options.learningRate.map (lrUpdate c0 c1) } }) := by
  constructor
  · intro h
    unfold optimizeLearningRate
    rw [if_pos h]
  · intro c0 c1 rest hh
    unfold optimizeLearningRate
    rw [if_neg (by rw [hh]; simp)]
    rw [hh]
    simp only [List.getD_cons_zero, List.getD_cons_succ, gt_iff_lt]
    by_cases hc : c1 < c0
    · rw [if_pos hc]
      have hf : lrUpdate c0 c1 = (· / 2) := by
        funext lr
        unfold lrUpdate
        rw [if_pos hc]
      rw [hf]
    · rw [if_neg hc]
      have hf : lrUpdate c0 c1 = (· * (21/20)) := by
        funext lr
        unfold lrUpdate
        rw [if_neg hc]
      rw [hf]

/-- Witness for C3: with cost history `[3, 2]` (cost rose from 2 to 3) and
learning rate 1, the controller halves the learning rate to 1/2 and changes
nothing else. -/
theorem optimizeLearningRate_spec_witness :
    optimizeLearningRate W3 =
      { W3 with options := { opts0 with learningRate := some (1/2) } } := by
  refine ((optimizeLearningRate_spec W3).2 3 2 [] rfl).trans ?_
  norm_num [W3, opts0, lrUpdate, Model.mk.injEq, Hyper.mk.injEq]

/-- Claim C8: for a model built from a full hyperparameters record with
`iterations = k`, one `train()` call leaves a cost history of length
exactly `k` (one entry per completed epoch), and a second `train()` call on
the same instance leaves length `2 * k`. -/
theorem train_costHistory_counts (P : Prims) (f l : Mat) (o : Hyper) (k : ℕ)
    (hk : o.iterations = some k) :
    (train P (mkModel P f l (some o))).costHistory.length = k ∧
    (train P (train P (mkModel P f l (some o)))).costHistory.length = 2 * k := by
  set m := mkModel P f l (some o) with hm
  have h0 : m.costHistory = [] := rfl
  have h1 : m.options.iterations = some k := hk
  have e1 := train_costHistory_length P m
  rw [h0, h1] at e1
  simp only [List.length_nil, Option.getD_some, Nat.add_zero] at e1
  have e2 := train_costHistory_length P (train P m)
  rw [train_iterations, h1, e1] at e2
  simp only [Option.getD_some] at e2
  exact ⟨e1, by rw [e2]; ring⟩

/-- Witness for C8: the two-iteration model `M0` has cost-history length 2
after one `train()` and 4 after two. -/
theorem train_costHistory_counts_witness :
    (train idPrims (mkModel idPrims [[1],[3]] [[0],[1]] (some opts0))).costHistory.length = 2 ∧
    (train idPrims (train idPrims (mkModel idPrims [[1],[3]] [[0],[1]] (some opts0)))).costHistory.length = 4 :=
  train_costHistory_counts idPrims [[1],[3]] [[0],[1]] opts0 2 rfl

/-- Claim C10: the documented defaults (learningRate 0.1, iterations 1000,
batchSize 1, decisionBoundary 0.5) apply only when the options argument is
omitted (`none`); a supplied record is stored as-is, absent fields
included, and for a record lacking `iterations` the JS loop bound
`i < undefined` is false, so `train()` completes zero epochs, leaving the
model unchanged: all-zero weight rows and an empty cost history. -/
theorem constructor_defaults (P : Prims) (f l : Mat) (o : Hyper)
    (hi : o.iterations = none) :
    (mkModel P f l none).options.learningRate = some (1/10) ∧
    (mkModel P f l none).options.iterations = some 1000 ∧
    (mkModel P f l none).options.batchSize = some 1 ∧
    (mkModel P f l none).options.decisionBoundary = some (1/2) ∧
    (mkModel P f l (some o)).options = o ∧
    train P (mkModel P f l (some o)) = mkModel P f l (some o) ∧
    (mkModel P f l (some o)).costHistory = [] ∧
    (∀ r ∈ (mkModel P f l (some o)).weights, r = [0]) := by
  refine ⟨rfl, rfl, rfl, rfl, rfl, ?_, rfl, ?_⟩
  · unfold train
    have h1 : (mkModel P f l (some o)).options.iterations = none := hi
    rw [h1]
    simp
  · intro r hr
    have : (mkModel P f l (some o)).weights =
        List.replicate (width (preprocessFeatures P none none f).1) [0] := rfl
    rw [this] at hr
    exact List.eq_of_mem_replicate hr

/-- Witness for C10: constructing with `opts10` (no `iterations` field) and
training leaves the model exactly as constructed. -/
theorem constructor_defaults_witness :
    opts10.iterations = none ∧
    train idPrims (mkModel idPrims [[1],[3]] [[0],[1]] (some opts10)) =
      mkModel idPrims [[1],[3]] [[0],[1]] (some opts10) :=
  ⟨rfl, (constructor_defaults idPrims [[1],[3]] [[0],[1]] opts10 rfl).2.2.2.2.2.1⟩

/-- Claim C2 counterexample: the constructor stores the caller's options
object by reference (`this.options = options`), not a copy, so the caller's
record after training is the model's `options`; for the concrete model
`M0`, built from `opts0` (learningRate 1, 2 iterations), training changes
the record's learningRate field to 1/2 — the caller-supplied record does
NOT keep its original value. -/
theorem options_record_changed_counterexample :
    (train idPrims (mkModel idPrims [[1],[3]] [[0],[1]] (some opts0))).options.learningRate ≠
      opts0.learningRate := by
  rw [show mkModel idPrims [[1],[3]] [[0],[1]] (some opts0) = M0 from rfl,
    train_M0]
  norm_num [M2lit, opts0]

/-- Claim C2 (amended): the constructor stores the caller's options record
by reference, so `train()` mutates its `learningRate` field in place; every
OTHER field of the caller-supplied record (iterations, batchSize,
decisionBoundary) still holds its original value after any number of
`train()` calls, and the record is stored untouched at construction. -/
theorem options_shared_other_fields_preserved (P : Prims) (f l : Mat)
    (o : Hyper) :
    (mkModel P f l (some o)).options = o ∧
    (train P (mkModel P f l (some o))).options.iterations = o.iterations ∧
    (train P (mkModel P f l (some o))).options.batchSize = o.batchSize ∧
    (train P (mkModel P f l (some o))).options.decisionBoundary =
      o.decisionBoundary ∧
    (train P (train P (mkModel P f l (some o)))).options.iterations =
      o.iterations ∧
    (train P (train P (mkModel P f l (some o)))).options.batchSize =
      o.batchSize ∧
    (train P (train P (mkModel P f l (some o)))).options.decisionBoundary =
      o.decisionBoundary := by
  refine ⟨rfl, ?_, ?_, ?_, ?_, ?_, ?_⟩ <;> simp <;> rfl

/-- Claim C1 (amended): `recordCost` prepends (`unshift`), so after a
`train()` run of `k` epochs the exposed cost history is in REVERSE
chronological order: it equals the reversed list of per-epoch costs
(prepended to whatever history existed before), and for a fresh model the
entry at index `i` is the cost recorded at the end of epoch `k − 1 − i` —
the most recent cost first, epoch 0's cost last. -/
theorem costHistory_reverse_chronological (P : Prims) (m : Model) (b k : ℕ)
    (hb : m.options.batchSize = some b) (hk : m.options.iterations = some k) :
    (train P m).costHistory =
      ((List.range k).map (epochCost P (m.features.length / b) m)).reverse ++
        m.costHistory ∧
    (m.costHistory = [] → ∀ i, i < k →
      (train P m).costHistory.getD i 0 =
        epochCost P (m.features.length / b) m (k - 1 - i)) := by
  have h := train_eq_runEpochs P m b k hb hk
  constructor
  · rw [h]
    exact runEpochs_costHistory P (m.features.length / b) m k
  · intro h0 i hi
    rw [h, runEpochs_costHistory, h0, List.append_nil]
    rw [List.getD_eq_getElem _ _ (by simpa using hi)]
    rw [List.getElem_reverse]
    simp [List.getElem_map, List.getElem_range]

/-- Witness for C1 (amended) at the concrete model `M0` (2 epochs): the
exposed history is the reversed chronological cost list, and the entry at
index 0 is epoch 1's cost. -/
theorem costHistory_reverse_chronological_witness :
    (train idPrims M0).costHistory =
      ((List.range 2).map (epochCost idPrims (M0.features.length / 1) M0)).reverse ++
        M0.costHistory ∧
    (train idPrims M0).costHistory.getD 0 0 =
      epochCost idPrims (M0.features.length / 1) M0 (2 - 1 - 0) := by
  have h := costHistory_reverse_chronological idPrims M0 1 2 rfl rfl
  exact ⟨h.1, h.2 rfl 0 (by norm_num)⟩

/-- Claim C1 counterexample: for the concrete model `M0` trained with
iterations = 2, the cost-history entry at index 0 is the SECOND epoch's
cost (−1/2), not the cost recorded at the end of epoch 0 (−3/2) — the
exposed order is not chronological. -/
theorem costHistory_not_chronological_counterexample :
    (train idPrims M0).costHistory.getD 0 0 ≠ epochCost idPrims 2 M0 0 := by
  rw [train_M0]
  unfold epochCost
  rw [runEpochs_one_M0]
  norm_num [M2lit, M1lit, M0lit]

lemma width_eq_getD (A : Mat) : width A = (A.getD 0 []).length := by
  cases A <;> rfl

lemma row_length_of_mem (A : Mat) (d i : ℕ) (hA : ∀ r ∈ A, r.length = d)
    (hi : i < A.length) : (A.getD i []).length = d := by
  rw [List.getD_eq_getElem _ _ hi]
  exact hA _ (List.getElem_mem hi)

lemma width_of_mem (A : Mat) (d : ℕ) (hA : ∀ r ∈ A, r.length = d)
    (h : 0 < A.length) : width A = d := by
  rw [width_eq_getD]
  exact row_length_of_mem A d 0 hA h

/-- Claim C4: one `gradientDescent` call on a batch with features `X`
(`n` rows, `d` columns, `n, d > 0`) and labels `y` (`n` rows) replaces the
weight vector by `w − learningRate · (Xᵀ · (sigmoid(X·w) − y)) / n`,
elementwise: the k-th weight becomes
`w_k − lr · (∑_i X_{i,k} · (sigmoid(∑_j X_{i,j} · w_j) − y_i)) / n`. -/
theorem gradientDescent_formula (P : Prims) (m : Model) (X y : Mat)
    (lr : ℚ) (n d : ℕ)
    (hlr : m.options.learningRate = some lr)
    (hn : X.length = n) (hnpos : 0 < n)
    (hX : ∀ r ∈ X, r.length = d) (hdpos : 0 < d)
    (hw : m.weights.length = d) (hwr : ∀ r ∈ m.weights, r.length = 1)
    (hy : y.length = n) (hyr : ∀ r ∈ y, r.length = 1) :
    ∀ k, k < d → entry (gradientDescent P m X y).weights k 0 =
      entry m.weights k 0 -
        lr * ((∑ i ∈ Finset.range n, entry X i k *
          (P.sig (∑ j ∈ Finset.range d, entry X i j * entry m.weights j 0)
            - entry y i 0)) / n) := by
  intro k hk
  set w := m.weights with hwdef
  have hXlen : X.length = n := hn
  have hXrow : ∀ i, i < n → (X.getD i []).length = d := fun i hi =>
    row_length_of_mem X d i hX (by rw [hXlen]; exact hi)
  have hwidthX : width X = d := width_of_mem X d hX (by rw [hXlen]; exact hnpos)
  have hwidthw : width w = 1 :=
    width_of_mem w 1 hwr (by rw [hw]; exact hdpos)
  have hwrow : ∀ j, j < d → (w.getD j []).length = 1 := fun j hj =>
    row_length_of_mem w 1 j hwr (by rw [hw]; exact hj)
  have hyrow : ∀ i, i < n → (y.getD i []).length = 1 := fun i hi =>
    row_length_of_mem y 1 i hyr (by rw [hy]; exact hi)
  set preds := mapMat P.sig (matMul X w) with hpreds
  have hpredslen : preds.length = n := by
    rw [hpreds, length_mapMat, length_matMul, hXlen]
  have hpredsrow : ∀ i, i < n → (preds.getD i []).length = 1 := by
    intro i hi
    rw [hpreds, row_mapMat_length, row_matMul_length X w i (by rw [hXlen]; exact hi),
      hwidthw]
  set diff := zipMat (· - ·) preds y with hdiff
  have hdifflen : diff.length = n := by
    rw [hdiff, length_zipMat, hpredslen, hy, Nat.min_self]
  have hdiffrow : ∀ i, i < n → (diff.getD i []).length = 1 := by
    intro i hi
    rw [hdiff, row_zipMat_length _ _ _ i (by rw [hpredslen]; exact hi)
      (by rw [hy]; exact hi), hpredsrow i hi, hyrow i hi, Nat.min_self]
  have hdiffentry : ∀ i, i < n → entry diff i 0 =
      P.sig (∑ j ∈ Finset.range d, entry X i j * entry w j 0) - entry y i 0 := by
    intro i hi
    rw [hdiff, entry_zipMat_of_lt _ _ _ i 0 (by rw [hpredslen]; exact hi)
      (by rw [hy]; exact hi) (by rw [hpredsrow i hi]; norm_num)
      (by rw [hyrow i hi]; norm_num)]
    congr 1
    rw [hpreds, entry_mapMat_of_lt _ _ i 0
      (by rw [length_matMul, hXlen]; exact hi)
      (by rw [row_matMul_length X w i (by rw [hXlen]; exact hi), hwidthw]
          norm_num)]
    congr 1
    exact entry_matMul X w i 0 d (by rw [hXlen]; exact hi) (hXrow i hi)
      hw (by rw [hwidthw]; norm_num)
  set G := matMul (transp X) diff with hG
  have hGlen : G.length = d := by
    rw [hG, length_matMul, length_transp, hwidthX]
  have hwidthdiff : width diff = 1 := by
    rw [width_eq_getD]
    exact hdiffrow 0 hnpos
  have hGrow : (G.getD k []).length = 1 := by
    rw [hG, row_matMul_length _ _ k (by rw [length_transp, hwidthX]; exact hk),
      hwidthdiff]
  have hGentry : entry G k 0 =
      ∑ i ∈ Finset.range n, entry X i k *
        (P.sig (∑ j ∈ Finset.range d, entry X i j * entry w j 0)
          - entry y i 0) := by
    rw [hG, entry_matMul (transp X) diff k 0 n
      (by rw [length_transp, hwidthX]; exact hk)
      (by rw [getD_transp X k (by rw [hwidthX]; exact hk)]
          simp [hXlen])
      hdifflen (by rw [hwidthdiff]; norm_num)]
    refine Finset.sum_congr rfl fun i hi => ?_
    rw [entry_transp X k i (by rw [hwidthX]; exact hk),
      hdiffentry i (Finset.mem_range.1 hi)]
  have hfinal : entry (gradientDescent P m X y).weights k 0 =
      entry w k 0 - (entry G k 0 / n) * lr := by
    show entry (zipMat (· - ·) w
      (mapMat (· * m.options.learningRate.getD 0)
        (mapMat (· / (X.length : ℚ)) G))) k 0 = _
    have hlen2 : (mapMat (· * m.options.learningRate.getD 0)
        (mapMat (· / (X.length : ℚ)) G)).length = d := by
      rw [length_mapMat, length_mapMat, hGlen]
    have hrow2 : ((mapMat (· * m.options.learningRate.getD 0)
        (mapMat (· / (X.length : ℚ)) G)).getD k []).length = 1 := by
      rw [row_mapMat_length, row_mapMat_length, hGrow]
    rw [entry_zipMat_of_lt _ _ _ k 0 (by rw [hw]; exact hk)
      (by rw [hlen2]; exact hk) (by rw [hwrow k hk]; norm_num)
      (by rw [hrow2]; norm_num)]
    congr 1
    rw [entry_mapMat_of_lt _ _ k 0 (by rw [length_mapMat, hGlen]; exact hk)
      (by rw [row_mapMat_length, hGrow]; norm_num)]
    rw [entry_mapMat_of_lt _ _ k 0 (by rw [hGlen]; exact hk)
      (by rw [hGrow]; norm_num)]
    rw [hlr, Option.getD_some, hXlen]
  rw [hfinal, hGentry]
  ring

/-- Witness for C4: a concrete gradient step on a 2×2 batch, instantiating
the elementwise update formula at weight index 0. -/
theorem gradientDescent_formula_witness :
    entry (gradientDescent idPrims W4 [[1,2],[3,4]] [[0],[1]]).weights 0 0 =
      entry W4.weights 0 0 -
        1 * ((∑ i ∈ Finset.range 2, entry [[1,2],[3,4]] i 0 *
          (idPrims.sig (∑ j ∈ Finset.range 2,
            entry [[1,2],[3,4]] i j * entry W4.weights j 0)
            - entry [[0],[1]] i 0)) / ((2 : ℕ) : ℚ)) :=
  gradientDescent_formula idPrims W4 [[1,2],[3,4]] [[0],[1]] 1 2 2 rfl rfl
    (by norm_num)
    (by intro r hr
        simp only [List.mem_cons, List.not_mem_nil, or_false] at hr
        rcases hr with rfl | rfl <;> rfl)
    (by norm_num) rfl
    (by intro r hr
        simp only [W4, List.mem_cons, List.not_mem_nil, or_false] at hr
        rcases hr with rfl | rfl <;> rfl)
    rfl
    (by intro r hr
        simp only [List.mem_cons, List.not_mem_nil, or_false] at hr
        rcases hr with rfl | rfl <;> rfl)
    0 (by norm_num)

lemma width_mapMat (f : ℚ → ℚ) (A : Mat) : width (mapMat f A) = width A := by
  cases A <;> simp [mapMat, width]

lemma entry_predictions (P : Prims) (X w : Mat) (n d i : ℕ)
    (hn : X.length = n) (hX : ∀ r ∈ X, r.length = d)
    (hw : w.length = d) (hwr : ∀ r ∈ w, r.length = 1) (hdpos : 0 < d)
    (hi : i < n) :
    entry (mapMat P.sig (matMul X w)) i 0 =
      P.sig (∑ j ∈ Finset.range d, entry X i j * entry w j 0) := by
  have hwidthw : width w = 1 := width_of_mem w 1 hwr (by rw [hw]; exact hdpos)
  rw [entry_mapMat_of_lt _ _ i 0 (by rw [length_matMul, hn]; exact hi)
    (by rw [row_matMul_length X w i (by rw [hn]; exact hi), hwidthw]
        norm_num)]
  congr 1
  exact entry_matMul X w i 0 d (by rw [hn]; exact hi)
    (row_length_of_mem X d i hX (by rw [hn]; exact hi)) hw
    (by rw [hwidthw]; norm_num)

lemma row_length_predictions (P : Prims) (X w : Mat) (n d i : ℕ)
    (hn : X.length = n) (hw : w.length = d)
    (hwr : ∀ r ∈ w, r.length = 1) (hdpos : 0 < d) (hi : i < n) :
    ((mapMat P.sig (matMul X w)).getD i []).length = 1 := by
  have hwidthw : width w = 1 := width_of_mem w 1 hwr (by rw [hw]; exact hdpos)
  rw [row_mapMat_length, row_matMul_length X w i (by rw [hn]; exact hi),
    hwidthw]

/-- Claim C5: `recordCost` evaluates predictions `p = sigmoid(F·w)` over the
FULL stored training feature matrix `F` (`n` rows, `d` columns — every row,
not one batch) and adds to the cost history the scalar
`−(1/n)·(yᵀ·log(p) + (1−y)ᵀ·log(1−p))`, with the matrix products collapsed
to indexed sums; the previous history entries are all preserved. -/
theorem recordCost_formula (P : Prims) (m : Model) (n d : ℕ)
    (hn : m.features.length = n) (hnpos : 0 < n)
    (hF : ∀ r ∈ m.features, r.length = d) (hdpos : 0 < d)
    (hw : m.weights.length = d) (hwr : ∀ r ∈ m.weights, r.length = 1)
    (hy : m.labels.length = n) (hyr : ∀ r ∈ m.labels, r.length = 1) :
    recordCost P m = { m with costHistory :=
      (-(1 / (n : ℚ)) *
        ((∑ i ∈ Finset.range n, entry m.labels i 0 *
          P.log (P.sig (∑ j ∈ Finset.range d,
            entry m.features i j * entry m.weights j 0))) +
         (∑ i ∈ Finset.range n, (1 - entry m.labels i 0) *
          P.log (1 - P.sig (∑ j ∈ Finset.range d,
            entry m.features i j * entry m.weights j 0))))) :: m.costHistory } := by
  have hcore : costValue P m =
      -(1 / (n : ℚ)) *
        ((∑ i ∈ Finset.range n, entry m.labels i 0 *
          P.log (P.sig (∑ j ∈ Finset.range d,
            entry m.features i j * entry m.weights j 0))) +
         (∑ i ∈ Finset.range n, (1 - entry m.labels i 0) *
          P.log (1 - P.sig (∑ j ∈ Finset.range d,
            entry m.features i j * entry m.weights j 0)))) := by
    set F := m.features with hFdef
    set w := m.weights with hwdef
    set y := m.labels with hydef
    set preds := mapMat P.sig (matMul F w) with hpreds
    have hpredslen : preds.length = n := by
      rw [hpreds, length_mapMat, length_matMul, hn]
    have hpredsrow : ∀ i, i < n → (preds.getD i []).length = 1 := fun i hi =>
      row_length_predictions P F w n d i hn hw hwr hdpos hi
    have hpredsentry : ∀ i, i < n → entry preds i 0 =
        P.sig (∑ j ∈ Finset.range d, entry F i j * entry w j 0) := fun i hi =>
      entry_predictions P F w n d i hn hF hw hwr hdpos hi
    have hyrow : ∀ i, i < n → (y.getD i []).length = 1 := fun i hi =>
      row_length_of_mem y 1 i hyr (by rw [hy]; exact hi)
    have hwidthy : width y = 1 := width_of_mem y 1 hyr (by rw [hy]; exact hnpos)
    set pone := mapMat P.log preds with hpone
    have hponelen : pone.length = n := by rw [hpone, length_mapMat, hpredslen]
    have hponerow : ∀ i, i < n → (pone.getD i []).length = 1 := fun i hi => by
      rw [hpone, row_mapMat_length]; exact hpredsrow i hi
    set termOne := matMul (transp y) pone with htermOne
    have ht1 : entry termOne 0 0 =
        ∑ i ∈ Finset.range n, entry y i 0 *
          P.log (P.sig (∑ j ∈ Finset.range d, entry F i j * entry w j 0)) := by
      rw [htermOne, entry_matMul (transp y) pone 0 0 n
        (by rw [length_transp, hwidthy]; norm_num)
        (by rw [getD_transp y 0 (by rw [hwidthy]; norm_num)]
            simp [hy])
        hponelen
        (by rw [width_eq_getD, hponerow 0 hnpos]; norm_num)]
      refine Finset.sum_congr rfl fun i hi => ?_
      have hi' := Finset.mem_range.1 hi
      rw [entry_transp y 0 i (by rw [hwidthy]; norm_num),
        hpone, entry_mapMat_of_lt _ _ i 0 (by rw [hpredslen]; exact hi')
          (by rw [hpredsrow i hi']; norm_num),
        hpredsentry i hi']
    set yflip := mapMat (fun x => x * (-1) + 1) y with hyflip
    have hyfliplen : yflip.length = n := by rw [hyflip, length_mapMat, hy]
    have hyfliprow : ∀ i, i < n → (yflip.getD i []).length = 1 := fun i hi => by
      rw [hyflip, row_mapMat_length]; exact hyrow i hi
    have hwidthyflip : width yflip = 1 := by
      rw [hyflip, width_mapMat, hwidthy]
    set pflip := mapMat P.log (mapMat (fun x => x * (-1) + 1) preds) with hpflip
    have hpfliplen : pflip.length = n := by
      rw [hpflip, length_mapMat, length_mapMat, hpredslen]
    have hpfliprow : ∀ i, i < n → (pflip.getD i []).length = 1 := fun i hi => by
      rw [hpflip, row_mapMat_length, row_mapMat_length]; exact hpredsrow i hi
    set termTwo := matMul (transp yflip) pflip with htermTwo
    have ht2 : entry termTwo 0 0 =
        ∑ i ∈ Finset.range n, (1 - entry y i 0) *
          P.log (1 - P.sig (∑ j ∈ Finset.range d, entry F i j * entry w j 0)) := by
      rw [htermTwo, entry_matMul (transp yflip) pflip 0 0 n
        (by rw [length_transp, hwidthyflip]; norm_num)
        (by rw [getD_transp yflip 0 (by rw [hwidthyflip]; norm_num)]
            simp [hyfliplen])
        hpfliplen
        (by rw [width_eq_getD, hpfliprow 0 hnpos]; norm_num)]
      refine Finset.sum_congr rfl fun i hi => ?_
      have hi' := Finset.mem_range.1 hi
      rw [entry_transp yflip 0 i (by rw [hwidthyflip]; norm_num)]
      rw [hyflip, entry_mapMat_of_lt _ _ i 0 (by rw [hy]; exact hi')
        (by rw [hyrow i hi']; norm_num)]
      rw [hpflip, entry_mapMat_of_lt _ _ i 0
        (by rw [length_mapMat, hpredslen]; exact hi')
        (by rw [row_mapMat_length, hpredsrow i hi']; norm_num)]
      rw [entry_mapMat_of_lt _ _ i 0 (by rw [hpredslen]; exact hi')
        (by rw [hpredsrow i hi']; norm_num)]
      rw [hpredsentry i hi']
      ring_nf
    have ht1len : termOne.length = 1 := by
      rw [htermOne, length_matMul, length_transp, hwidthy]
    have ht2len : termTwo.length = 1 := by
      rw [htermTwo, length_matMul, length_transp, hwidthyflip]
    have ht1row : (termOne.getD 0 []).length = 1 := by
      rw [htermOne, row_matMul_length _ _ 0
        (by rw [length_transp, hwidthy]; norm_num),
        width_eq_getD, hponerow 0 hnpos]
    have ht2row : (termTwo.getD 0 []).length = 1 := by
      rw [htermTwo, row_matMul_length _ _ 0
        (by rw [length_transp, hwidthyflip]; norm_num),
        width_eq_getD, hpfliprow 0 hnpos]
    show entry (mapMat (· * (-1))
      (mapMat (· / ((F.length : ℚ))) (zipMat (· + ·) termOne termTwo))) 0 0 = _
    rw [entry_mapMat_of_lt _ _ 0 0
      (by rw [length_mapMat, length_zipMat, ht1len, ht2len]; norm_num)
      (by rw [row_mapMat_length,
          row_zipMat_length _ _ _ 0 (by rw [ht1len]; norm_num)
            (by rw [ht2len]; norm_num), ht1row, ht2row]
          norm_num)]
    rw [entry_mapMat_of_lt _ _ 0 0
      (by rw [length_zipMat, ht1len, ht2len]; norm_num)
      (by rw [row_zipMat_length _ _ _ 0 (by rw [ht1len]; norm_num)
            (by rw [ht2len]; norm_num), ht1row, ht2row]
          norm_num)]
    rw [entry_zipMat_of_lt _ _ _ 0 0 (by rw [ht1len]; norm_num)
      (by rw [ht2len]; norm_num) (by rw [ht1row]; norm_num)
      (by rw [ht2row]; norm_num)]
    rw [ht1, ht2, hn]
    ring
  show { m with costHistory := costValue P m :: m.costHistory } = _
  rw [hcore]

/-- Witness for C5: the cross-entropy formula instantiated at the concrete
2-row model `W4`. -/
theorem recordCost_formula_witness :
    recordCost idPrims W4 = { W4 with costHistory :=
      (-(1 / ((2 : ℕ) : ℚ)) *
        ((∑ i ∈ Finset.range 2, entry W4.labels i 0 *
          idPrims.log (idPrims.sig (∑ j ∈ Finset.range 2,
            entry W4.features i j * entry W4.weights j 0))) +
         (∑ i ∈ Finset.range 2, (1 - entry W4.labels i 0) *
          idPrims.log (1 - idPrims.sig (∑ j ∈ Finset.range 2,
            entry W4.features i j * entry W4.weights j 0))))) :: W4.costHistory } :=
  recordCost_formula idPrims W4 2 2 rfl (by norm_num)
    (by intro r hr
        simp only [W4, List.mem_cons, List.not_mem_nil, or_false] at hr
        rcases hr with rfl | rfl <;> rfl)
    (by norm_num) rfl
    (by intro r hr
        simp only [W4, List.mem_cons, List.not_mem_nil, or_false] at hr
        rcases hr with rfl | rfl <;> rfl)
    rfl
    (by intro r hr
        simp only [W4, List.mem_cons, List.not_mem_nil, or_false] at hr
        rcases hr with rfl | rfl <;> rfl)

lemma eq_singleton_of_length_one {α : Type*} (l : List α) (d : α)
    (h : l.length = 1) : l = [l.getD 0 d] := by
  cases l with
  | nil => simp at h
  | cons a t =>
    cases t with
    | nil => rfl
    | cons b t2 => simp at h

lemma length_addBias (A : Mat) : (addBias A).length = A.length := by
  simp [addBias]

lemma length_rowwiseSub (A : Mat) (v : List ℚ) :
    (rowwiseSub A v).length = A.length := by
  simp [rowwiseSub]

lemma length_rowwiseDiv (A : Mat) (v : List ℚ) :
    (rowwiseDiv A v).length = A.length := by
  simp [rowwiseDiv]

lemma row_proc (obs : Mat) (mn vr : List ℚ) (P : Prims) (i : ℕ)
    (hi : i < obs.length) :
    (addBias (rowwiseDiv (rowwiseSub obs mn) (vr.map P.sqrt))).getD i [] =
      1 :: List.zipWith (· / ·)
        (List.zipWith (· - ·) (obs.getD i []) mn) (vr.map P.sqrt) := by
  unfold addBias rowwiseDiv rowwiseSub
  rw [getD_map_of_lt _ _ i [] _ (by simpa using hi),
    getD_map_of_lt _ _ i [] _ (by simpa using hi),
    getD_map_of_lt _ _ i [] _ hi]

/-- Claim C9: `predict` returns exactly one label row per observation row,
in order: row `i` of the output is the singleton `[1]` when
`sigmoid(processedRow_i · weights)` is strictly greater than
`decisionBoundary` and `[0]` otherwise; in particular a row whose value
equals the boundary exactly is labeled 0. -/
theorem predict_spec (P : Prims) (m : Model) (obs : Mat) (db : ℚ)
    (mn vr : List ℚ) (c : ℕ)
    (hdb : m.options.decisionBoundary = some db)
    (hm : m.mean = some mn) (hv : m.variance = some vr)
    (hobs : ∀ r ∈ obs, r.length = c) (hmn : mn.length = c)
    (hvr : vr.length = c)
    (hw : m.weights.length = c + 1) (hwr : ∀ r ∈ m.weights, r.length = 1) :
    (predict P m obs).1.length = obs.length ∧
    (∀ i, i < obs.length →
      (predict P m obs).1.getD i [] =
        [if db < P.sig (∑ j ∈ Finset.range (c + 1),
            entry (addBias (rowwiseDiv (rowwiseSub obs mn) (vr.map P.sqrt))) i j *
            entry m.weights j 0) then 1 else 0]) ∧
    (∀ i, i < obs.length →
      P.sig (∑ j ∈ Finset.range (c + 1),
        entry (addBias (rowwiseDiv (rowwiseSub obs mn) (vr.map P.sqrt))) i j *
        entry m.weights j 0) = db →
      (predict P m obs).1.getD i [] = [0]) := by
  set proc := addBias (rowwiseDiv (rowwiseSub obs mn) (vr.map P.sqrt)) with hproc
  have hpf : preprocessFeatures P m.mean m.variance obs =
      (proc, some mn, some vr) := by
    rw [hm, hv, hproc]
    rfl
  have hpredict : (predict P m obs).1 =
      mapMat (fun x => if P.sig x > db then 1 else 0)
        (matMul proc m.weights) := by
    unfold predict
    rw [hpf, hdb]
    rfl
  have hproclen : proc.length = obs.length := by
    rw [hproc, length_addBias, length_rowwiseDiv, length_rowwiseSub]
  have hprocrow : ∀ i, i < obs.length → (proc.getD i []).length = c + 1 := by
    intro i hi
    rw [hproc, row_proc obs mn vr P i hi]
    simp only [List.length_cons, List.length_zipWith, List.length_map]
    rw [row_length_of_mem obs c i hobs hi, hmn, hvr]
    simp
  have hwidthw : width m.weights = 1 :=
    width_of_mem m.weights 1 hwr (by rw [hw]; omega)
  have hizero : ∀ i, i < obs.length →
      entry (matMul proc m.weights) i 0 =
        ∑ j ∈ Finset.range (c + 1), entry proc i j * entry m.weights j 0 := by
    intro i hi
    exact entry_matMul proc m.weights i 0 (c + 1)
      (by rw [hproclen]; exact hi) (hprocrow i hi) hw
      (by rw [hwidthw]; norm_num)
  have hrow : ∀ i, i < obs.length →
      (predict P m obs).1.getD i [] =
        [if db < P.sig (∑ j ∈ Finset.range (c + 1),
            entry proc i j * entry m.weights j 0) then 1 else 0] := by
    intro i hi
    rw [hpredict]
    unfold mapMat
    rw [getD_map_of_lt _ _ i [] _ (by rw [length_matMul, hproclen]; exact hi)]
    have hlen1 : ((matMul proc m.weights).getD i []).length = 1 := by
      rw [row_matMul_length _ _ i (by rw [hproclen]; exact hi), hwidthw]
    rw [eq_singleton_of_length_one _ 0 hlen1]
    show [if P.sig (entry (matMul proc m.weights) i 0) > db then (1:ℚ) else 0] = _
    rw [hizero i hi]
  refine ⟨?_, hrow, ?_⟩
  · rw [hpredict, length_mapMat, length_matMul, hproclen]
  · intro i hi heq
    rw [hrow i hi, heq]
    simp

/-- Witness for C9: predicting one observation row with the concrete model
`M0lit` yields exactly one singleton label row, thresholded strictly at the
decision boundary 1/2. -/
theorem predict_spec_witness :
    (predict idPrims M0lit [[5]]).1.length = 1 ∧
    (predict idPrims M0lit [[5]]).1.getD 0 [] =
      [if (1/2 : ℚ) < idPrims.sig (∑ j ∈ Finset.range 2,
          entry (addBias (rowwiseDiv (rowwiseSub [[5]] [2])
            ([1].map idPrims.sqrt))) 0 j *
          entry M0lit.weights j 0) then 1 else 0] := by
  have h := predict_spec idPrims M0lit [[5]] (1/2) [2] [1] 1 rfl rfl rfl
    (by intro r hr
        simp only [List.mem_cons, List.not_mem_nil, or_false] at hr
        subst hr
        rfl)
    rfl rfl rfl
    (by intro r hr
        simp only [M0lit, List.mem_cons, List.not_mem_nil, or_false] at hr
        rcases hr with rfl | rfl <;> rfl)
  exact ⟨h.1.trans rfl, h.2.1 0 (by norm_num)⟩

/-- Claim C6: the per-column mean and variance are computed exactly once, by
the `preprocessFeatures` call made during construction (the stored moments
are those of the raw training features); every later `preprocessFeatures`
call with stored moments applies `(x − mean) / sqrt(variance)` using them,
returning them unchanged rather than recomputing, and `train`, `predict`
and `test` all preserve the stored moments for the lifetime of the
instance. -/
theorem moments_computed_once (P : Prims) (f l obs tf tl : Mat)
    (o : Option Hyper) :
    (mkModel P f l o).mean = some (colMeans f) ∧
    (mkModel P f l o).variance = some (colVars f) ∧
    (∀ (mn vr : List ℚ) (A : Mat),
      preprocessFeatures P (some mn) (some vr) A =
        (addBias (rowwiseDiv (rowwiseSub A mn) (vr.map P.sqrt)),
          some mn, some vr)) ∧
    (∀ m : Model, (train P m).mean = m.mean ∧ (train P m).variance = m.variance) ∧
    (∀ (m : Model) (mn vr : List ℚ), m.mean = some mn → m.variance = some vr →
      (predict P m obs).2 = m) ∧
    (∀ (m : Model) (mn vr : List ℚ), m.mean = some mn → m.variance = some vr →
      (test P m tf tl).2 = m) := by
  refine ⟨rfl, rfl, fun mn vr A => rfl, fun m => ⟨by simp, by simp⟩, ?_, ?_⟩
  · intro m mn vr hm hv
    unfold predict
    rw [show preprocessFeatures P m.mean m.variance obs =
        (addBias (rowwiseDiv (rowwiseSub obs mn) (vr.map P.sqrt)),
          some mn, some vr) by rw [hm, hv]; rfl]
    show ({ m with mean := some mn, variance := some vr } : Model) = m
    rw [← hm, ← hv]
  · intro m mn vr hm hv
    unfold test predict
    rw [show preprocessFeatures P m.mean m.variance tf =
        (addBias (rowwiseDiv (rowwiseSub tf mn) (vr.map P.sqrt)),
          some mn, some vr) by rw [hm, hv]; rfl]
    show ({ m with mean := some mn, variance := some vr } : Model) = m
    rw [← hm, ← hv]

/-- Witness for C6: the constructor stores the moments of the raw training
features, and `predict` on the concrete model `M0lit` (stored moments
present) leaves the model untouched. -/
theorem moments_computed_once_witness :
    (mkModel idPrims [[1],[3]] [[0],[1]] (some opts0)).mean =
      some (colMeans [[1],[3]]) ∧
    (predict idPrims M0lit [[5]]).2 = M0lit := by
  have h := moments_computed_once idPrims [[1],[3]] [[0],[1]] [[5]] [[5]]
    [[0]] (some opts0)
  exact ⟨h.1, h.2.2.2.2.1 M0lit [2] [1] rfl rfl⟩

lemma sliceRows_take_eq (A B : Mat) (s len t : ℕ) (hst : s + len ≤ t)
    (h : A.take t = B.take t) : sliceRows A s len = sliceRows B s len := by
  have key : ∀ C : Mat, sliceRows C s len = ((C.take t).drop s).take len := by
    intro C
    unfold sliceRows
    rw [List.drop_take t s C, List.take_take]
    congr 1
    omega
  rw [key A, key B, h]

lemma batchPass_eq (P : Prims) (st : Model) (j b : ℕ)
    (hb : st.options.batchSize = some b) :
    batchPass P st j = gradientDescent P st
      (sliceRows st.features (j * b) b) (sliceRows st.labels (j * b) b) := by
  unfold batchPass
  rw [hb]
  rfl

lemma gradientDescent_weights_eq (P : Prims) (s : Model) (X y : Mat) :
    (gradientDescent P s X y).weights =
      zipMat (· - ·) s.weights
        (mapMat (· * s.options.learningRate.getD 0)
          (mapMat (· / (X.length : ℚ)) (matMul (transp X)
            (zipMat (· - ·) (mapMat P.sig (matMul X s.weights)) y)))) := rfl

lemma foldl_gd_weights_congr (P : Prims) (prs : List (Mat × Mat))
    (s1 s2 : Model) (hw : s1.weights = s2.weights)
    (ho : s1.options = s2.options) :
    (prs.foldl (fun s pr => gradientDescent P s pr.1 pr.2) s1).weights =
    (prs.foldl (fun s pr => gradientDescent P s pr.1 pr.2) s2).weights := by
  induction prs generalizing s1 s2 with
  | nil => exact hw
  | cons pr t ih =>
    simp only [List.foldl_cons]
    apply ih
    · rw [gradientDescent_weights_eq, gradientDescent_weights_eq, hw, ho]
    · show s1.options = s2.options
      exact ho

lemma batchLoop_explicit (P : Prims) (st : Model) (b : ℕ)
    (hb : st.options.batchSize = some b) (q : ℕ) :
    (List.range q).foldl (batchPass P) st =
      ((List.range q).map (fun j =>
        (sliceRows st.features (j * b) b,
          sliceRows st.labels (j * b) b))).foldl
        (fun s pr => gradientDescent P s pr.1 pr.2) st := by
  induction q with
  | zero => rfl
  | succ n ih =>
    rw [List.range_succ, List.map_append, List.foldl_append, List.foldl_append,
      ← ih]
    simp only [List.map_cons, List.map_nil, List.foldl_cons, List.foldl_nil]
    rw [batchPass_eq P _ n b (by rw [batchLoop_options]; exact hb),
      batchLoop_features, batchLoop_labels]

/-- Claim C7: with `batchSize = b ≥ 1`, every epoch of `train()` performs
exactly `q = ⌊rows / b⌋` gradient steps, on exactly the feature/label row
slices `[j·b, (j+1)·b)` of the state at the start of the epoch, for
`j = 0 .. q−1` in increasing order (the fold is sequential), and the rows
at index ≥ `q·b` — the dropped final partial batch — never enter any of the
epoch's weight updates: two states agreeing on the first `q·b` feature and
label rows produce identical weights from the epoch's batch phase. -/
theorem train_batch_structure (P : Prims) (m : Model) (b k : ℕ)
    (hb : m.options.batchSize = some b) (_hbpos : 1 ≤ b)
    (hk : m.options.iterations = some k) :
    train P m = runEpochs P (m.features.length / b) m k ∧
    (∀ st : Model, st.options.batchSize = some b →
      (List.range (st.features.length / b)).foldl (batchPass P) st =
        ((List.range (st.features.length / b)).map (fun j =>
          (sliceRows st.features (j * b) b,
            sliceRows st.labels (j * b) b))).foldl
          (fun s pr => gradientDescent P s pr.1 pr.2) st) ∧
    (∀ (st : Model) (F2 L2 : Mat), st.options.batchSize = some b →
      F2.length = st.features.length →
      F2.take (st.features.length / b * b) =
        st.features.take (st.features.length / b * b) →
      L2.take (st.features.length / b * b) =
        st.labels.take (st.features.length / b * b) →
      ((List.range (st.features.length / b)).foldl (batchPass P)
        { st with features := F2, labels := L2 }).weights =
      ((List.range (st.features.length / b)).foldl (batchPass P) st).weights) := by
  refine ⟨train_eq_runEpochs P m b k hb hk,
    fun st hbst => batchLoop_explicit P st b hbst _, ?_⟩
  intro st F2 L2 hbst hF2len hF2 hL2
  set q := st.features.length / b with hq
  set st2 : Model := { st with features := F2, labels := L2 } with hst2
  have hbst2 : st2.options.batchSize = some b := hbst
  rw [batchLoop_explicit P st2 b hbst2 q, batchLoop_explicit P st b hbst q]
  have hslices : (List.range q).map (fun j =>
      (sliceRows st2.features (j * b) b, sliceRows st2.labels (j * b) b)) =
      (List.range q).map (fun j =>
      (sliceRows st.features (j * b) b, sliceRows st.labels (j * b) b)) := by
    refine List.map_eq_map_iff.mpr fun j hj => ?_
    have hjq : j < q := by simpa using hj
    have hbound : j * b + b ≤ q * b := by
      have : j + 1 ≤ q := hjq
      calc j * b + b = (j + 1) * b := by ring
        _ ≤ q * b := Nat.mul_le_mul_right b this
    have hf : sliceRows st2.features (j * b) b =
        sliceRows st.features (j * b) b :=
      sliceRows_take_eq _ _ _ _ _ hbound hF2
    have hl : sliceRows st2.labels (j * b) b =
        sliceRows st.labels (j * b) b :=
      sliceRows_take_eq _ _ _ _ _ hbound hL2
    rw [hf, hl]
  rw [hslices]
  exact foldl_gd_weights_congr P _ st2 st rfl rfl

/-- Witness for C7: the concrete model `M0` (2 rows, batch size 1, 2
iterations): training iterates epochs with batch count ⌊2/1⌋, and the
epoch's batch phase is the fold of `gradientDescent` over the explicit row
slices in increasing batch order. -/
theorem train_batch_structure_witness :
    train idPrims M0 = runEpochs idPrims (M0.features.length / 1) M0 2 ∧
    ((List.range (M0.features.length / 1)).foldl (batchPass idPrims) M0 =
      ((List.range (M0.features.length / 1)).map (fun j =>
        (sliceRows M0.features (j * 1) 1,
          sliceRows M0.labels (j * 1) 1))).foldl
        (fun s pr => gradientDescent idPrims s pr.1 pr.2) M0) := by
  have h := train_batch_structure idPrims M0 1 2 rfl (by norm_num) rfl
  exact ⟨h.1, h.2.1 M0 rfl⟩
